import Mathlib

/-!
# Diamond-window averaging filter (`src/main.c`)

A shallow embedding of `compute_cpu`, of the OpenCL kernel `compute_gpu` held in
`kernel_source`, and of the argument checks of `main`, followed by the properties
of the filter proved (or refuted at a concrete input) on that embedding.

Modelling conventions.

* A C `int` used as a loop counter, a coordinate or an index is a mathematical
  integer (`Int`); `/` of C is `Int.tdiv`, `%` of C is `Int.tmod`.
* The accumulators `sum` and `ones` are 32-bit `int`s.  Every definition that
  touches them takes an `IntModel`: with `IntModel.int32` each addition and the
  division wrap around modulo 2^32 into `[-2^31, 2^31)`, as two's complement
  arithmetic does; with `IntModel.exact` they are exact, which is the reading of
  the statements that take the accumulators as exact integers.
* The buffers `in` and `out` are maps from an index to the byte held there.  A
  store into `out` converts the `int` to `unsigned char`, i.e. reduces it modulo 256.
* Every read of `in` and every store into `out` is also appended to a trace, so
  that statements about "every read" and "every division" can be made.
* `for (x = lo; x < hi; x++)` with a body that does not assign `x` runs the body
  for `x = lo, lo+1, ...`, `(hi - lo).toNat` times.
-/

namespace Filter

/-! ## Machine state -/

/-- One memory access of the filter: a read `in[idx]`, or the store
`out[idx] = sum / ones` executed for output pixel `(i, j)`. -/
inductive Event where
  | read (idx : Int)
  | store (i j idx sum ones : Int)
deriving DecidableEq

/-- The variables `sum`, `ones`, the contents of the buffer `out`, and the trace of
the memory accesses made so far. -/
structure State where
  sum : Int
  ones : Int
  out : Int → Int
  trace : List Event

/-- Conversion of an `int` to `unsigned char`. -/
def toUChar (x : Int) : Int := x % 256

/-- Reduction of an integer to the 32-bit two's complement range `[-2^31, 2^31)`. -/
def wrap32 (x : Int) : Int := (x + 2147483648) % 4294967296 - 2147483648

/-- How the `int` accumulators `sum` and `ones` are read: as the machine's 32-bit
integers, or as exact integers. -/
inductive IntModel where
  | int32
  | exact
deriving DecidableEq

/-- The value an accumulator holds after a result `x` is assigned to it. -/
def IntModel.norm : IntModel → Int → Int
  | IntModel.int32, x => wrap32 x
  | IntModel.exact, x => x

/-! ## Counted loops -/

/-- Runs `body lo`, `body (lo+1)`, ... for `n` iterations. -/
def forRange {σ : Type} (lo : Int) : Nat → (Int → σ → σ) → σ → σ
  | 0, _, s => s
  | n + 1, body, s => forRange (lo + 1) n body (body lo s)

/-- The loop `for (x = lo; x < hi; x++) body`. -/
def forLt {σ : Type} (lo hi : Int) (body : Int → σ → σ) (s : σ) : σ :=
  forRange lo (hi - lo).toNat body s

/-- The loop `for (x = lo; x <= hi; x++) body`. -/
def forLe {σ : Type} (lo hi : Int) (body : Int → σ → σ) (s : σ) : σ :=
  forRange lo (hi + 1 - lo).toNat body s

/-! ## `compute_cpu` (main.c, lines 21-49) -/

/-- Lines 36-43: the body of the innermost loop of `compute_cpu`. -/
def cpu_cell (m : IntModel) (inp : Int → Int) (cols fs_half i j r c : Int) (s : State) :
    State :=
  let x_dist := j - (c - fs_half)
  let x_dist := if x_dist < 0 then -x_dist else x_dist
  let y_dist := i - (r - fs_half)
  let y_dist := if y_dist < 0 then -y_dist else y_dist
  if x_dist + y_dist ≤ fs_half then
    { s with
      ones := m.norm (s.ones + 1)
      sum := m.norm (s.sum + inp (r * cols + c))
      trace := s.trace ++ [Event.read (r * cols + c)] }
  else s

/-- Lines 34-45: the two window loops of `compute_cpu` for output pixel `(i, j)`. -/
def cpu_window (m : IntModel) (inp : Int → Int) (cols filter_size fs_half i j : Int)
    (s : State) : State :=
  forLe i (i + filter_size) (fun r s =>
    forLt j (j + filter_size) (fun c s => cpu_cell m inp cols fs_half i j r c s) s) s

/-- Line 46: `out[i*(cols - filter_size + 1) + j] = sum / ones;`. -/
def cpu_store (m : IntModel) (cols filter_size i j : Int) (s : State) : State :=
  { s with
    out := Function.update s.out (i * (cols - filter_size + 1) + j)
      (toUChar (m.norm (Int.tdiv s.sum s.ones)))
    trace := s.trace ++
      [Event.store i j (i * (cols - filter_size + 1) + j) s.sum s.ones] }

/-- Lines 33-47: the body of the loop over `i`, i.e. the loop over `j`. -/
def cpu_row (m : IntModel) (inp : Int → Int) (cols filter_size fs_half out_cols i : Int)
    (s : State) : State :=
  forLt 0 out_cols (fun j s =>
    cpu_store m cols filter_size i j (cpu_window m inp cols filter_size fs_half i j s)) s

/-- The function `compute_cpu`, started on an output buffer holding `out0`.  The
accumulators `sum` and `ones` are initialised once, before the loops (line 29), and
are `int`s, read according to `m`. -/
def compute_cpu (m : IntModel) (inp out0 : Int → Int) (rows cols filter_size : Int) :
    State :=
  let fs_half := Int.tdiv filter_size 2
  let out_rows := rows - filter_size + 1
  let out_cols := cols - filter_size + 1
  forLt 0 out_rows (fun i s => cpu_row m inp cols filter_size fs_half out_cols i s)
    { sum := 0, ones := 0, out := out0, trace := [] }

/-! ## The kernel `compute_gpu` (main.c, lines 51-77) -/

/-- Lines 65-72 of the kernel text: the body of its innermost loop. -/
def gpu_cell (m : IntModel) (inp : Int → Int) (cols fs_half i j r c : Int) (s : State) :
    State :=
  let x_dist := j - (c - fs_half)
  let x_dist := if x_dist < 0 then -x_dist else x_dist
  let y_dist := i - (r - fs_half)
  let y_dist := if y_dist < 0 then -y_dist else y_dist
  if x_dist + y_dist ≤ fs_half then
    { s with
      ones := m.norm (s.ones + 1)
      sum := m.norm (s.sum + inp (r * cols + c))
      trace := s.trace ++ [Event.read (r * cols + c)] }
  else s

/-- One work item of the kernel `compute_gpu`: `i = get_global_id(0)`,
`j = get_global_id(1)`, run on an output buffer holding `out0` after the accesses
`tr0`.  A work item outside the output region returns at once (lines 58-60);
`sum` and `ones` are local `int`s of the work item, read according to `m`, and
start at 0 (line 62). -/
def compute_gpu (m : IntModel) (inp : Int → Int) (rows cols filter_size : Int) (i j : Int)
    (out0 : Int → Int) (tr0 : List Event) : State :=
  let fs_half := Int.tdiv filter_size 2
  let out_rows := rows - filter_size + 1
  let out_cols := cols - filter_size + 1
  if i < 0 ∨ i ≥ out_rows ∨ j < 0 ∨ j ≥ out_cols then
    { sum := 0, ones := 0, out := out0, trace := tr0 }
  else
    let s : State := { sum := 0, ones := 0, out := out0, trace := tr0 }
    let s := forLe i (i + filter_size) (fun r s =>
      forLt j (j + filter_size) (fun c s => gpu_cell m inp cols fs_half i j r c s) s) s
    { s with
      out := Function.update s.out (i * (cols - filter_size + 1) + j)
        (toUChar (m.norm (Int.tdiv s.sum s.ones)))
      trace := s.trace ++
        [Event.store i j (i * (cols - filter_size + 1) + j) s.sum s.ones] }

/-- The kernel run once for each coordinate of `items`, in the order of the list,
on an output buffer holding `out0`. -/
def gpu_run (m : IntModel) (inp : Int → Int) (rows cols filter_size : Int)
    (items : List (Int × Int)) (out0 : Int → Int) : State :=
  items.foldl
    (fun s p => compute_gpu m inp rows cols filter_size p.1 p.2 s.out s.trace)
    { sum := 0, ones := 0, out := out0, trace := [] }

/-- The index space `{ out_rows, out_cols }` of the kernel launch (line 177): every
coordinate `(i, j)` with `0 ≤ i < out_rows` and `0 ≤ j < out_cols`, row by row. -/
def work_items (out_rows out_cols : Int) : List (Int × Int) :=
  (List.range out_rows.toNat).flatMap
    (fun i : Nat => (List.range out_cols.toNat).map (fun j : Nat => ((i : Int), (j : Int))))

/-! ## The argument checks of `main` (main.c, lines 79-215) -/

/-- The executor selected by `argv[4]`. -/
inductive Executor where
  | cpu
  | gpu
deriving DecidableEq

/-- What a run of `main` did: its return value, the error message it printed (if
any), the number of bytes asked of `malloc` at line 105 (if that line was reached),
the executor it invoked (if any) and the state that executor left. -/
structure Outcome where
  exit_code : Int
  error_msg : Option String
  malloc_size : Option Int
  invoked : Option Executor
  result : Option State

/-- The function `main`.  `load` is what `pgm_load` delivered (`none` when it
failed, else the pixel buffer with `rows` and `cols`), `filter_size` is
`atoi(argv[3])`, `exec_mode` is `argv[4]`, `cl_err` is the first non-zero status
returned by an OpenCL call (0 when all succeed; a failure is taken to precede the
kernel launch) and `out0` is the content of the freshly allocated output buffer.
The executors run on 32-bit accumulators.  Only error messages are recorded, and those
with a format argument (the file name, the OpenCL status and line number) are
recorded without it; the timing and the final `pgm_save` are left out. -/
def main (argc : Int) (load : Option ((Int → Int) × Int × Int)) (filter_size : Int)
    (exec_mode : String) (cl_err : Int) (out0 : Int → Int) : Outcome :=
  if argc ≠ 5 then
    { exit_code := 1, error_msg := some "Usage: [this_executable] filename_in filename_out filter_size exec_mode\n\n",
      malloc_size := none, invoked := none, result := none }
  else
    match load with
    | none =>
      { exit_code := 2, error_msg := some "Error in loading", malloc_size := none,
        invoked := none, result := none }
    | some (img, rows, cols) =>
      if filter_size ≤ 0 ∨ Int.tmod filter_size 2 = 0 then
        { exit_code := 3, error_msg := some "Error: invalid filter size\n",
          malloc_size := none, invoked := none, result := none }
      else
        let out_rows := rows - filter_size + 1
        let out_cols := cols - filter_size + 1
        let out_size := out_rows * out_cols
        if exec_mode = "--cpu" then
          { exit_code := 0, error_msg := none, malloc_size := some out_size,
            invoked := some Executor.cpu,
            result := some (compute_cpu IntModel.int32 img out0 rows cols filter_size) }
        else if exec_mode = "--gpu" then
          if cl_err ≠ 0 then
            { exit_code := cl_err, error_msg := some "An OpenCL error occurred.",
              malloc_size := some out_size, invoked := none, result := none }
          else
            { exit_code := 0, error_msg := none, malloc_size := some out_size,
              invoked := some Executor.gpu,
              result := some (gpu_run IntModel.int32 img rows cols filter_size
                (work_items out_rows out_cols) out0) }
        else
          { exit_code := 4, error_msg := some "Invalid exec mode.\n",
            malloc_size := some out_size, invoked := none, result := none }

/-! ## The filter as the specification words it -/

/-- The diamond mask: candidate `(r, c)` belongs to the window of output pixel
`(i, j)` iff `|j - (c - half)| + |i - (r - half)| ≤ half`. -/
def inMask (half i j r c : Int) : Prop :=
  |j - (c - half)| + |i - (r - half)| ≤ half

instance inMask_decidable (half i j r c : Int) : Decidable (inMask half i j r c) := by
  unfold inMask; infer_instance

/-- The window of output pixel `(i, j)`: the candidates `(r, c)` with
`i ≤ r ≤ i + size` and `j ≤ c < j + size` that pass the mask, `half = size / 2`. -/
def window (size i j : Int) : Finset (Int × Int) :=
  (Finset.Icc i (i + size) ×ˢ Finset.Ico j (j + size)).filter
    (fun p => inMask (size / 2) i j p.1 p.2)

/-- The sum of the input samples of the window of `(i, j)`. -/
def windowSum (inp : Int → Int) (cols size i j : Int) : Int :=
  ∑ p ∈ window size i j, inp (p.1 * cols + p.2)

/-- The number of samples of the window of `(i, j)`. -/
def windowCount (size i j : Int) : Int :=
  ((window size i j).card : Int)

/-- The buffer `inp` holds an image of `rows * cols` samples in `0..255`. -/
def IsImage (inp : Int → Int) (rows cols : Int) : Prop :=
  ∀ k : Int, 0 ≤ k → k < rows * cols → 0 ≤ inp k ∧ inp k ≤ 255

/-! ## Auxiliary notions used in the statements and proofs -/

/-- The stores of a trace, as `(i, j, idx)`, in the order they were executed. -/
def stores : List Event → List (Int × Int × Int)
  | [] => []
  | Event.read _ :: t => stores t
  | Event.store i j idx _ _ :: t => (i, j, idx) :: stores t

/-- A read of the window of `(i, j)`: the event reads `in[r*cols + c]` for a
candidate `(r, c)` of the scan that passes the mask. -/
def WindowRead (cols size half i j : Int) (e : Event) : Prop :=
  ∃ r c : Int, e = Event.read (r * cols + c) ∧ i ≤ r ∧ r ≤ i + size ∧ j ≤ c ∧
    c < j + size ∧ inMask half i j r c

/-- The trace `t2` extends `t1` by events that all satisfy `Q`. -/
def Extends (Q : Event → Prop) (t1 t2 : List Event) : Prop :=
  ∃ t, t2 = t1 ++ t ∧ ∀ e ∈ t, Q e

/-- The coordinate `(i, j)` is an output pixel. -/
def ValidPixel (rows cols size i j : Int) : Prop :=
  0 ≤ i ∧ i < rows - size + 1 ∧ 0 ≤ j ∧ j < cols - size + 1

/-- One round of the loop over `j` of `compute_cpu`: scan the window of `(i, j)`,
then store. -/
def cpu_pixel (m : IntModel) (inp : Int → Int) (cols size i j : Int) (s : State) : State :=
  cpu_store m cols size i j (cpu_window m inp cols size (Int.tdiv size 2) i j s)

/-- The output pixels with their slots, row by row. -/
def pixel_slots (R C : Nat) (W : Int) : List (Int × Int × Int) :=
  (List.range R).flatMap
    (fun i : Nat => (List.range C).map (fun j : Nat => ((i : Int), (j : Int), (i : Int) * W + (j : Int))))

/-- The divisors of the divisions `sum / ones` of a trace, in the order they were
executed. -/
def divisors : List Event → List Int
  | [] => []
  | Event.read _ :: t => divisors t
  | Event.store _ _ _ _ ones :: t => ones :: divisors t

/-- The divisor of a store event is at least 1. -/
def Event.divisorPos : Event → Prop
  | Event.read _ => True
  | Event.store _ _ _ _ ones => 1 ≤ ones

/-- The 1 × 2 image `[[0, 2]]`. -/
def img_0_2 : Int → Int := fun k => if k = 1 then 2 else 0

/-- The 3 × 3 image `[[0,0,0],[0,9,0],[0,0,0]]`. -/
def img_center9 : Int → Int := fun k => if k = 4 then 9 else 0

/-- An image all of whose samples are 100. -/
def img_all100 : Int → Int := fun _ => 100

/-- An image all of whose samples are 255. -/
def img_all255 : Int → Int := fun _ => 255

/-- An output buffer holding zeros. -/
def out_zero : Int → Int := fun _ => 0


/-! ## Loop rules -/

/-- Invariant rule for `forRange`: an invariant indexed by the number of iterations
already made. -/
theorem forRange_inv {σ : Type} (body : Int → σ → σ) (n : Nat) :
    ∀ (P : Nat → σ → Prop) (lo : Int) (s : σ), P 0 s →
      (∀ (k : Nat) (t : σ), k < n → P k t → P (k + 1) (body (lo + k) t)) →
      P n (forRange lo n body s) := by
  induction n with
  | zero => intro P lo s h0 _; exact h0
  | succ n ih =>
    intro P lo s h0 hstep
    show P (n + 1) (forRange (lo + 1) n body (body lo s))
    apply ih (fun k t => P (k + 1) t) (lo + 1) (body lo s)
    · have h := hstep 0 s (Nat.succ_pos n) h0
      simpa using h
    · intro k t hk hP
      have h := hstep (k + 1) t (Nat.succ_lt_succ hk) hP
      have e : lo + ((k + 1 : Nat) : Int) = lo + 1 + (k : Int) := by push_cast; ring
      rw [e] at h
      exact h

/-- Invariant rule for `for (x = lo; x < hi; x++)`: the body keeps `P` for every
`x` of the range. -/
theorem forLt_preserve {σ : Type} (body : Int → σ → σ) (P : σ → Prop) (lo hi : Int)
    (s : σ) (h0 : P s)
    (hstep : ∀ (x : Int) (t : σ), lo ≤ x → x < hi → P t → P (body x t)) :
    P (forLt lo hi body s) := by
  unfold forLt
  apply forRange_inv body _ (fun _ t => P t) lo s h0
  intro k t hk hP
  exact hstep _ t (by omega) (by omega) hP

/-- Invariant rule for `for (x = lo; x <= hi; x++)`. -/
theorem forLe_preserve {σ : Type} (body : Int → σ → σ) (P : σ → Prop) (lo hi : Int)
    (s : σ) (h0 : P s)
    (hstep : ∀ (x : Int) (t : σ), lo ≤ x → x ≤ hi → P t → P (body x t)) :
    P (forLe lo hi body s) := by
  unfold forLe
  apply forRange_inv body _ (fun _ t => P t) lo s h0
  intro k t hk hP
  exact hstep _ t (by omega) (by omega) hP

theorem Ico_add_succ (lo : Int) (k : Nat) :
    Finset.Ico lo (lo + ((k + 1 : Nat) : Int)) = insert (lo + (k : Int)) (Finset.Ico lo (lo + k)) := by
  ext x
  simp only [Finset.mem_Ico, Finset.mem_insert]
  push_cast
  omega

/-- A sum over an interval of integers, indexed by the offset from its start. -/
theorem sum_Ico_eq_range (f : Int → Int) (a : Int) (n : Nat) :
    ∑ x ∈ Finset.Ico a (a + (n : Int)), f x = ∑ k ∈ Finset.range n, f (a + (k : Int)) := by
  induction n with
  | zero => simp
  | succ n ih =>
    rw [Ico_add_succ, Finset.sum_insert (by simp), Finset.sum_range_succ, ih]
    ring

/-! ## The accumulator models -/

theorem norm_zero (m : IntModel) : m.norm 0 = 0 := by
  cases m <;> rfl

theorem norm_add_norm (m : IntModel) (a b : Int) : m.norm (m.norm a + b) = m.norm (a + b) := by
  cases m
  · show wrap32 (wrap32 a + b) = wrap32 (a + b)
    unfold wrap32
    omega
  · rfl

theorem norm_norm (m : IntModel) (a : Int) : m.norm (m.norm a) = m.norm a := by
  have h := norm_add_norm m a 0
  simpa using h

/-- A value of the 32-bit range is kept by an assignment. -/
theorem norm_of_range (m : IntModel) (x : Int) (h1 : -2147483648 ≤ x) (h2 : x < 2147483648) :
    m.norm x = x := by
  cases m
  · show wrap32 x = x
    unfold wrap32
    omega
  · rfl

/-- A loop whose body assigns `f + g x` to the accumulator `f` leaves in it the
accumulator's start value plus the sum of `g` over the range, as the model reads it. -/
theorem forLt_sum (m : IntModel) {σ : Type} (body : Int → σ → σ) (f : σ → Int)
    (g : Int → Int) (lo hi : Int) (s : σ) (h0 : m.norm (f s) = f s)
    (hstep : ∀ (x : Int) (t : σ), lo ≤ x → x < hi → m.norm (f t) = f t →
      f (body x t) = m.norm (f t + g x)) :
    f (forLt lo hi body s) = m.norm (f s + ∑ x ∈ Finset.Ico lo hi, g x) := by
  unfold forLt
  have key := forRange_inv body (hi - lo).toNat
    (fun k t => f t = m.norm (f s + ∑ x ∈ Finset.Ico lo (lo + (k : Int)), g x)) lo s
    (by simp [h0])
    (by
      intro k t hk hP
      have hn : m.norm (f t) = f t := by rw [hP, norm_norm]
      rw [hstep _ t (by omega) (by omega) hn, hP, norm_add_norm, Ico_add_succ,
        Finset.sum_insert (by simp)]
      congr 1
      ring)
  rw [key]
  congr 3
  ext x
  simp only [Finset.mem_Ico]
  omega

/-- The same for `for (x = lo; x <= hi; x++)`. -/
theorem forLe_sum (m : IntModel) {σ : Type} (body : Int → σ → σ) (f : σ → Int)
    (g : Int → Int) (lo hi : Int) (s : σ) (h0 : m.norm (f s) = f s)
    (hstep : ∀ (x : Int) (t : σ), lo ≤ x → x ≤ hi → m.norm (f t) = f t →
      f (body x t) = m.norm (f t + g x)) :
    f (forLe lo hi body s) = m.norm (f s + ∑ x ∈ Finset.Icc lo hi, g x) := by
  have h := forLt_sum m body f g lo (hi + 1) s h0
    (fun x t h1 h2 hn => hstep x t h1 (by omega) hn)
  have e : Finset.Ico lo (hi + 1) = Finset.Icc lo hi := by
    ext x
    simp only [Finset.mem_Ico, Finset.mem_Icc]
    omega
  rw [e] at h
  exact h

/-! ## The window loops -/

/-- The test of line 40 is the diamond mask. -/
theorem cpu_cell_eq (m : IntModel) (inp : Int → Int) (cols h i j r c : Int) (s : State) :
    cpu_cell m inp cols h i j r c s =
      if inMask h i j r c then
        { s with
          ones := m.norm (s.ones + 1)
          sum := m.norm (s.sum + inp (r * cols + c))
          trace := s.trace ++ [Event.read (r * cols + c)] }
      else s := by
  have e : (if j - (c - h) < 0 then -(j - (c - h)) else j - (c - h))
        + (if i - (r - h) < 0 then -(i - (r - h)) else i - (r - h)) ≤ h ↔
      inMask h i j r c := by
    unfold inMask
    rw [abs_eq_max_neg, abs_eq_max_neg]
    split_ifs <;> omega
  unfold cpu_cell
  simp only [e]

/-- The sum over the window, written as the two nested loops scan it. -/
theorem windowSum_eq (inp : Int → Int) (cols size i j : Int) :
    windowSum inp cols size i j =
      ∑ r ∈ Finset.Icc i (i + size), ∑ c ∈ Finset.Ico j (j + size),
        if inMask (size / 2) i j r c then inp (r * cols + c) else 0 := by
  unfold windowSum window
  rw [Finset.sum_filter, Finset.sum_product]

theorem windowCount_eq (size i j : Int) :
    windowCount size i j =
      ∑ r ∈ Finset.Icc i (i + size), ∑ c ∈ Finset.Ico j (j + size),
        if inMask (size / 2) i j r c then 1 else 0 := by
  unfold windowCount window
  rw [Finset.card_filter, Finset.sum_product]
  push_cast
  rfl

theorem Extends.refl (Q : Event → Prop) (t : List Event) : Extends Q t t :=
  ⟨[], by simp, by simp⟩

theorem Extends.trans {Q : Event → Prop} {t1 t2 t3 : List Event}
    (h12 : Extends Q t1 t2) (h23 : Extends Q t2 t3) : Extends Q t1 t3 := by
  obtain ⟨a, rfl, ha⟩ := h12
  obtain ⟨b, rfl, hb⟩ := h23
  refine ⟨a ++ b, by simp, ?_⟩
  intro e he
  rcases List.mem_append.1 he with h | h
  · exact ha e h
  · exact hb e h

theorem Extends.snoc {Q : Event → Prop} (t : List Event) (e : Event) (he : Q e) :
    Extends Q t (t ++ [e]) :=
  ⟨[e], rfl, by simpa using he⟩

/-- The two window loops leave `out` alone and read only window samples. -/
theorem cpu_window_frame (m : IntModel) (inp : Int → Int) (cols size half i j : Int)
    (s : State) :
    (cpu_window m inp cols size half i j s).out = s.out ∧
    Extends (WindowRead cols size half i j) s.trace
      (cpu_window m inp cols size half i j s).trace := by
  unfold cpu_window
  refine ⟨?_, ?_⟩
  · refine forLe_preserve _ (fun t : State => t.out = s.out) _ _ _ rfl ?_
    intro r t _ _ ht
    refine forLt_preserve _ (fun u : State => u.out = s.out) _ _ _ ht ?_
    intro c u _ _ hu
    rw [cpu_cell_eq]
    split_ifs <;> simpa using hu
  · refine forLe_preserve _
      (fun t : State => Extends (WindowRead cols size half i j) s.trace t.trace)
      _ _ _ (Extends.refl _ _) ?_
    intro r t hr1 hr2 ht
    refine forLt_preserve _
      (fun u : State => Extends (WindowRead cols size half i j) s.trace u.trace)
      _ _ _ ht ?_
    intro c u hc1 hc2 hu
    rw [cpu_cell_eq]
    split_ifs with hm
    · exact hu.trans (Extends.snoc _ _ ⟨r, c, rfl, hr1, hr2, hc1, hc2, hm⟩)
    · exact hu

/-- What the two window loops do to the accumulators: they add the window sum to
`sum` and the window count to `ones`, as the model reads the additions. -/
theorem cpu_window_sums (m : IntModel) (inp : Int → Int) (cols size half i j : Int)
    (s : State) (hs : m.norm s.sum = s.sum) (ho : m.norm s.ones = s.ones) :
    (cpu_window m inp cols size half i j s).sum = m.norm (s.sum +
        ∑ r ∈ Finset.Icc i (i + size), ∑ c ∈ Finset.Ico j (j + size),
          (if inMask half i j r c then inp (r * cols + c) else 0)) ∧
    (cpu_window m inp cols size half i j s).ones = m.norm (s.ones +
        ∑ r ∈ Finset.Icc i (i + size), ∑ c ∈ Finset.Ico j (j + size),
          (if inMask half i j r c then 1 else 0)) := by
  unfold cpu_window
  refine ⟨?_, ?_⟩
  · apply forLe_sum m _ State.sum _ _ _ _ hs
    intro r t _ _ ht
    apply forLt_sum m _ State.sum _ _ _ _ ht
    intro c u _ _ hu
    rw [cpu_cell_eq]
    split_ifs
    · rfl
    · simp [hu]
  · apply forLe_sum m _ State.ones _ _ _ _ ho
    intro r t _ _ ht
    apply forLt_sum m _ State.ones _ _ _ _ ht
    intro c u _ _ hu
    rw [cpu_cell_eq]
    split_ifs
    · rfl
    · simp [hu]

/-! ## Geometry of the mask -/

theorem tdiv_two_eq (size : Int) (hpos : 0 < size) : Int.tdiv size 2 = size / 2 :=
  Int.tdiv_eq_ediv (le_of_lt hpos) (by decide)

/-- For an odd size the mask never admits the extra candidate row `r = i + size`,
nor anything outside the `size × size` square at `(i, j)`. -/
theorem inMask_square (size i j r c : Int) (hodd : size % 2 = 1)
    (hm : inMask (size / 2) i j r c) :
    i ≤ r ∧ r < i + size ∧ j ≤ c ∧ c < j + size := by
  unfold inMask at hm
  rw [abs_eq_max_neg, abs_eq_max_neg] at hm
  omega

/-- The mask origin `(i + half, j + half)` is a sample of the window. -/
theorem origin_mem_window (size i j : Int) (hpos : 0 < size) :
    (i + size / 2, j + size / 2) ∈ window size i j := by
  unfold window inMask
  simp only [Finset.mem_filter, Finset.mem_product, Finset.mem_Icc, Finset.mem_Ico]
  refine ⟨⟨⟨by omega, by omega⟩, by omega, by omega⟩, ?_⟩
  rw [abs_eq_max_neg, abs_eq_max_neg]
  omega

theorem windowCount_pos (size i j : Int) (hpos : 0 < size) : 1 ≤ windowCount size i j := by
  unfold windowCount
  have h : 0 < (window size i j).card := Finset.card_pos.2 ⟨_, origin_mem_window size i j hpos⟩
  omega

/-- A sample inside the `size × size` square of a valid output pixel is a sample of
the image: its offset lies in `[0, rows*cols)`. -/
theorem index_in_bounds (rows cols size i j r c : Int)
    (hi : 0 ≤ i) (hi2 : i < rows - size + 1) (hj : 0 ≤ j) (hj2 : j < cols - size + 1)
    (hr : i ≤ r) (hr2 : r < i + size) (hc : j ≤ c) (hc2 : c < j + size) :
    0 ≤ r ∧ r < rows ∧ 0 ≤ c ∧ c < cols ∧ 0 ≤ r * cols + c ∧ r * cols + c < rows * cols := by
  have h1 : 0 ≤ r := by omega
  have h2 : r < rows := by omega
  have h3 : 0 ≤ c := by omega
  have h4 : c < cols := by omega
  refine ⟨h1, h2, h3, h4, ?_, ?_⟩
  · have : 0 ≤ r * cols := mul_nonneg h1 (by omega)
    omega
  · have : 0 ≤ (rows - 1 - r) * cols := mul_nonneg (by omega) (by omega)
    nlinarith

/-- Every sample of the window of a valid output pixel is a sample of the image. -/
theorem window_in_bounds (rows cols size i j : Int) (hodd : size % 2 = 1)
    (hi : 0 ≤ i) (hi2 : i < rows - size + 1) (hj : 0 ≤ j) (hj2 : j < cols - size + 1)
    (p : Int × Int) (hp : p ∈ window size i j) :
    0 ≤ p.1 * cols + p.2 ∧ p.1 * cols + p.2 < rows * cols := by
  unfold window at hp
  simp only [Finset.mem_filter] at hp
  obtain ⟨h1, h2, h3, h4⟩ := inMask_square size i j p.1 p.2 hodd hp.2
  have h := index_in_bounds rows cols size i j p.1 p.2 hi hi2 hj hj2 h1 h2 h3 h4
  exact ⟨h.2.2.2.2.1, h.2.2.2.2.2⟩

theorem windowSum_bounds (inp : Int → Int) (rows cols size i j : Int)
    (hodd : size % 2 = 1) (himg : IsImage inp rows cols)
    (hi : 0 ≤ i) (hi2 : i < rows - size + 1) (hj : 0 ≤ j) (hj2 : j < cols - size + 1) :
    0 ≤ windowSum inp cols size i j ∧
      windowSum inp cols size i j ≤ 255 * windowCount size i j := by
  unfold windowSum windowCount
  constructor
  · apply Finset.sum_nonneg
    intro p hp
    obtain ⟨h1, h2⟩ := window_in_bounds rows cols size i j hodd hi hi2 hj hj2 p hp
    exact (himg _ h1 h2).1
  · have h := Finset.sum_le_card_nsmul (window size i j)
      (fun p => inp (p.1 * cols + p.2)) 255 (by
        intro p hp
        obtain ⟨h1, h2⟩ := window_in_bounds rows cols size i j hodd hi hi2 hj hj2 p hp
        exact (himg _ h1 h2).2)
    rw [nsmul_eq_mul] at h
    linarith

/-- The truncating average of a window of image samples is a byte. -/
theorem window_avg_range (inp : Int → Int) (rows cols size i j : Int)
    (hpos : 0 < size) (hodd : size % 2 = 1) (himg : IsImage inp rows cols)
    (hi : 0 ≤ i) (hi2 : i < rows - size + 1) (hj : 0 ≤ j) (hj2 : j < cols - size + 1) :
    Int.tdiv (windowSum inp cols size i j) (windowCount size i j) =
        windowSum inp cols size i j / windowCount size i j ∧
      0 ≤ windowSum inp cols size i j / windowCount size i j ∧
      windowSum inp cols size i j / windowCount size i j ≤ 255 := by
  obtain ⟨h1, h2⟩ := windowSum_bounds inp rows cols size i j hodd himg hi hi2 hj hj2
  have h3 := windowCount_pos size i j hpos
  refine ⟨Int.tdiv_eq_ediv h1 (by omega), Int.ediv_nonneg h1 (by omega), ?_⟩
  have h4 : windowSum inp cols size i j / windowCount size i j < 256 := by
    apply Int.ediv_lt_of_lt_mul (by omega)
    linarith
  omega

/-- When the sum and the count of the window fit the accumulators, the value stored
for the pixel is the truncating average of the window. -/
theorem stored_avg (m : IntModel) (inp : Int → Int) (rows cols size i j : Int)
    (hpos : 0 < size) (hodd : size % 2 = 1) (himg : IsImage inp rows cols)
    (hi : 0 ≤ i) (hi2 : i < rows - size + 1) (hj : 0 ≤ j) (hj2 : j < cols - size + 1)
    (hsum : m.norm (windowSum inp cols size i j) = windowSum inp cols size i j)
    (hcnt : m.norm (windowCount size i j) = windowCount size i j) :
    toUChar (m.norm (Int.tdiv (m.norm (windowSum inp cols size i j))
        (m.norm (windowCount size i j)))) =
      windowSum inp cols size i j / windowCount size i j := by
  obtain ⟨h1, h2, h3⟩ := window_avg_range inp rows cols size i j hpos hodd himg hi hi2 hj hj2
  rw [hsum, hcnt, h1, norm_of_range m _ (by omega) (by omega)]
  unfold toUChar
  omega

/-- The number of samples of one row of the diamond. -/
theorem row_count (h i j r : Int) :
    (∑ c ∈ Finset.Ico j (j + (2 * h + 1)), if inMask h i j r c then (1 : Int) else 0) =
      ((2 * (h - |i - (r - h)|) + 1).toNat : Int) := by
  rw [Finset.sum_boole]
  have e : Finset.filter (fun c => inMask h i j r c) (Finset.Ico j (j + (2 * h + 1))) =
      Finset.Icc (j + h - (h - |i - (r - h)|)) (j + h + (h - |i - (r - h)|)) := by
    ext c
    simp only [Finset.mem_filter, Finset.mem_Ico, Finset.mem_Icc, inMask]
    rw [abs_eq_max_neg, abs_eq_max_neg]
    omega
  rw [e, Int.card_Icc]
  congr 2
  ring

theorem two_mul_sum_linear (a b : Int) (n : Nat) :
    2 * ∑ k ∈ Finset.range n, (a + b * (k : Int)) = 2 * n * a + b * (n * (n - 1)) := by
  induction n with
  | zero => simp
  | succ n ih =>
    rw [Finset.sum_range_succ, mul_add, ih]
    push_cast
    ring

/-- The window of an odd size `2h + 1` has `2h² + 2h + 1` samples, wherever it lies. -/
theorem diamond_count (h i j : Int) (hh : 0 ≤ h) :
    windowCount (2 * h + 1) i j = 2 * h * h + 2 * h + 1 := by
  obtain ⟨n, rfl⟩ := Int.eq_ofNat_of_zero_le hh
  rw [windowCount_eq]
  have e2 : (2 * (n : Int) + 1) / 2 = n := by omega
  rw [e2]
  rw [Finset.sum_congr rfl (fun r _ => row_count n i j r)]
  have e3 : Finset.Icc i (i + (2 * (n : Int) + 1)) =
      Finset.Ico i (i + ((n + (n + 2) : Nat) : Int)) := by
    ext x
    simp only [Finset.mem_Ico, Finset.mem_Icc]
    push_cast
    omega
  rw [e3, sum_Ico_eq_range, Finset.sum_range_add, Finset.sum_range_succ]
  have s1 : ∑ k ∈ Finset.range n,
      (((2 * ((n : Int) - |i - (i + (k : Int) - n)|) + 1).toNat : Nat) : Int) =
      ∑ k ∈ Finset.range n, (1 + 2 * (k : Int)) := by
    apply Finset.sum_congr rfl
    intro k hk
    have hk2 := Finset.mem_range.1 hk
    rw [abs_eq_max_neg]
    omega
  have s2 : ∑ k ∈ Finset.range (n + 1),
      (((2 * ((n : Int) - |i - (i + ((n + k : Nat) : Int) - n)|) + 1).toNat : Nat) : Int) =
      ∑ k ∈ Finset.range (n + 1), ((2 * (n : Int) + 1) + (-2) * (k : Int)) := by
    apply Finset.sum_congr rfl
    intro k hk
    have hk2 := Finset.mem_range.1 hk
    rw [abs_eq_max_neg]
    push_cast
    omega
  have s3 : (((2 * ((n : Int) - |i - (i + ((n + (n + 1) : Nat) : Int) - n)|) + 1).toNat :
      Nat) : Int) = 0 := by
    rw [abs_eq_max_neg]
    push_cast
    omega
  rw [s1, s2, s3]
  have t1 := two_mul_sum_linear 1 2 n
  have t2 := two_mul_sum_linear (2 * (n : Int) + 1) (-2) (n + 1)
  push_cast at t2
  nlinarith

/-! ## One round for an output pixel -/

/-- The accesses of one round: reads of window samples, then the store of the
pixel, whose operands are the accumulators the two window loops left. -/
theorem cpu_pixel_trace (m : IntModel) (inp : Int → Int) (cols size i j : Int) (s : State)
    (hpos : 0 < size) :
    ∃ t, (cpu_pixel m inp cols size i j s).trace =
        s.trace ++ t ++ [Event.store i j (i * (cols - size + 1) + j)
          (cpu_pixel m inp cols size i j s).sum (cpu_pixel m inp cols size i j s).ones] ∧
      ∀ e ∈ t, WindowRead cols size (size / 2) i j e := by
  unfold cpu_pixel
  rw [tdiv_two_eq size hpos]
  obtain ⟨_, t, ht, hQ⟩ := cpu_window_frame m inp cols size (size / 2) i j s
  unfold cpu_store
  simp only [ht]
  exact ⟨t, rfl, hQ⟩

/-- What one round does to the accumulators and to `out`, for a positive size. -/
theorem cpu_pixel_spec (m : IntModel) (inp : Int → Int) (cols size i j : Int) (s : State)
    (hpos : 0 < size) (hs : m.norm s.sum = s.sum) (ho : m.norm s.ones = s.ones) :
    (cpu_pixel m inp cols size i j s).sum =
      m.norm (s.sum + windowSum inp cols size i j) ∧
    (cpu_pixel m inp cols size i j s).ones =
      m.norm (s.ones + windowCount size i j) ∧
    (cpu_pixel m inp cols size i j s).out =
      Function.update s.out (i * (cols - size + 1) + j)
        (toUChar (m.norm (Int.tdiv (m.norm (s.sum + windowSum inp cols size i j))
          (m.norm (s.ones + windowCount size i j))))) := by
  unfold cpu_pixel
  rw [tdiv_two_eq size hpos]
  obtain ⟨e1, e2⟩ := cpu_window_sums m inp cols size (size / 2) i j s hs ho
  obtain ⟨e3, _⟩ := cpu_window_frame m inp cols size (size / 2) i j s
  rw [← windowSum_eq] at e1
  rw [← windowCount_eq] at e2
  unfold cpu_store
  simp only [e1, e2, e3]
  exact ⟨trivial, trivial, trivial⟩

/-! ## One work item of the kernel -/

/-- A work item inside the output region scans its window from `sum = ones = 0`
and stores, exactly as one round of the loops of `compute_cpu` does. -/
theorem compute_gpu_valid (m : IntModel) (inp : Int → Int) (rows cols size i j : Int)
    (out0 : Int → Int) (tr0 : List Event) (hv : ValidPixel rows cols size i j) :
    compute_gpu m inp rows cols size i j out0 tr0 =
      cpu_pixel m inp cols size i j { sum := 0, ones := 0, out := out0, trace := tr0 } := by
  obtain ⟨h1, h2, h3, h4⟩ := hv
  unfold compute_gpu
  have hg : ¬ (i < 0 ∨ i ≥ rows - size + 1 ∨ j < 0 ∨ j ≥ cols - size + 1) := by omega
  simp only [hg, if_false]
  rfl

/-- A work item outside the output region does nothing. -/
theorem compute_gpu_invalid (m : IntModel) (inp : Int → Int) (rows cols size i j : Int)
    (out0 : Int → Int) (tr0 : List Event) (hv : ¬ ValidPixel rows cols size i j) :
    compute_gpu m inp rows cols size i j out0 tr0 =
      { sum := 0, ones := 0, out := out0, trace := tr0 } := by
  unfold ValidPixel at hv
  unfold compute_gpu
  have hg : (i < 0 ∨ i ≥ rows - size + 1 ∨ j < 0 ∨ j ≥ cols - size + 1) := by omega
  simp only [hg, if_true]

/-- The buffer a valid work item leaves: one slot overwritten with the (converted)
quotient of the window sum by the window count, as the accumulators hold them. -/
theorem compute_gpu_out (m : IntModel) (inp : Int → Int) (rows cols size i j : Int)
    (out0 : Int → Int) (tr0 : List Event) (hpos : 0 < size)
    (hv : ValidPixel rows cols size i j) :
    (compute_gpu m inp rows cols size i j out0 tr0).out =
      Function.update out0 (i * (cols - size + 1) + j)
        (toUChar (m.norm (Int.tdiv (m.norm (windowSum inp cols size i j))
          (m.norm (windowCount size i j))))) := by
  rw [compute_gpu_valid m inp rows cols size i j out0 tr0 hv]
  obtain ⟨_, _, e3⟩ := cpu_pixel_spec m inp cols size i j
    { sum := 0, ones := 0, out := out0, trace := tr0 } hpos (norm_zero m) (norm_zero m)
  simp only [zero_add] at e3
  exact e3

/-- Distinct output pixels have distinct slots. -/
theorem slot_injective (C i j i2 j2 : Int) (hj : 0 ≤ j) (hj2 : j < C)
    (hk : 0 ≤ j2) (hk2 : j2 < C) (h : i * C + j = i2 * C + j2) : i = i2 ∧ j = j2 := by
  have hi : i = i2 := by
    rcases lt_trichotomy i i2 with hlt | heq | hgt
    · exfalso
      have : 0 ≤ (i2 - i - 1) * C := mul_nonneg (by omega) (by omega)
      nlinarith
    · exact heq
    · exfalso
      have : 0 ≤ (i - i2 - 1) * C := mul_nonneg (by omega) (by omega)
      nlinarith
  subst hi
  exact ⟨rfl, by omega⟩

/-- The slot of output pixel `(i, j)` after the kernel has run for the coordinates
of `items` in that order, from any state: the value of the pixel if `(i, j)` is
among them, else what the slot held before. -/
theorem gpu_fold_out (m : IntModel) (inp : Int → Int) (rows cols size i j : Int)
    (hpos : 0 < size) (hv : ValidPixel rows cols size i j) (items : List (Int × Int)) :
    ∀ s : State,
      (items.foldl
        (fun s p => compute_gpu m inp rows cols size p.1 p.2 s.out s.trace) s).out
          (i * (cols - size + 1) + j) =
        if (i, j) ∈ items then
          toUChar (m.norm (Int.tdiv (m.norm (windowSum inp cols size i j))
            (m.norm (windowCount size i j))))
        else s.out (i * (cols - size + 1) + j) := by
  induction items with
  | nil => intro s; simp
  | cons p ps ih =>
    intro s
    rw [List.foldl_cons, ih]
    by_cases hmem : (i, j) ∈ ps
    · simp [hmem]
    · simp only [hmem, if_false, List.mem_cons, or_false]
      by_cases hp : (i, j) = p
      · subst hp
        simp only [if_true]
        rw [compute_gpu_out m inp rows cols size i j _ _ hpos hv]
        simp
      · simp only [hp, if_false]
        by_cases hpv : ValidPixel rows cols size p.1 p.2
        · rw [compute_gpu_out m inp rows cols size p.1 p.2 _ _ hpos hpv]
          apply Function.update_noteq
          intro heq
          obtain ⟨_, _, h3, h4⟩ := hv
          obtain ⟨_, _, h7, h8⟩ := hpv
          obtain ⟨e1, e2⟩ := slot_injective (cols - size + 1) i j p.1 p.2 h3 h4 h7 h8 heq
          exact hp (Prod.ext e1 e2)
        · rw [compute_gpu_invalid m inp rows cols size p.1 p.2 _ _ hpv]

/-! ## The loops of `compute_cpu` -/

/-- Invariant rule for `compute_cpu`: a property of the initial state that every
round for an output pixel keeps, holds of the final state. -/
theorem compute_cpu_inv (m : IntModel) (P : State → Prop) (inp out0 : Int → Int)
    (rows cols size : Int)
    (h0 : P { sum := 0, ones := 0, out := out0, trace := [] })
    (hstep : ∀ (i j : Int) (s : State), ValidPixel rows cols size i j → P s →
      P (cpu_pixel m inp cols size i j s)) :
    P (compute_cpu m inp out0 rows cols size) := by
  unfold compute_cpu
  refine forLt_preserve _ P _ _ _ h0 ?_
  intro i s hi hi2 hs
  unfold cpu_row
  refine forLt_preserve _ P _ _ _ hs ?_
  intro j t hj hj2 ht
  exact hstep i j t ⟨hi, hi2, hj, hj2⟩ ht

theorem stores_append (a b : List Event) : stores (a ++ b) = stores a ++ stores b := by
  induction a with
  | nil => rfl
  | cons e t ih =>
    cases e with
    | read idx => simpa [stores] using ih
    | store i j idx sm n => simp [stores, ih]

theorem stores_reads (cols size half i j : Int) (t : List Event)
    (h : ∀ e ∈ t, WindowRead cols size half i j e) : stores t = [] := by
  induction t with
  | nil => rfl
  | cons e t ih =>
    obtain ⟨r, c, he, _⟩ := h e (List.mem_cons_self _ _)
    subst he
    simpa [stores] using ih (fun e he => h e (List.mem_cons_of_mem _ he))

theorem divisors_append (a b : List Event) :
    divisors (a ++ b) = divisors a ++ divisors b := by
  induction a with
  | nil => rfl
  | cons e t ih =>
    cases e with
    | read idx => simpa [divisors] using ih
    | store i j idx sm n => simp [divisors, ih]

theorem divisors_reads (cols size half i j : Int) (t : List Event)
    (h : ∀ e ∈ t, WindowRead cols size half i j e) : divisors t = [] := by
  induction t with
  | nil => rfl
  | cons e t ih =>
    obtain ⟨r, c, he, _⟩ := h e (List.mem_cons_self _ _)
    subst he
    simpa [divisors] using ih (fun e he => h e (List.mem_cons_of_mem _ he))

theorem length_divisors (t : List Event) : (divisors t).length = (stores t).length := by
  induction t with
  | nil => rfl
  | cons e t ih =>
    cases e with
    | read idx => simpa [divisors, stores] using ih
    | store i j idx sm n => simp [divisors, stores, ih]

/-- One round adds exactly one store, for pixel `(i, j)` at slot
`i*(cols - size + 1) + j`. -/
theorem cpu_pixel_stores (m : IntModel) (inp : Int → Int) (cols size i j : Int)
    (s : State) (hpos : 0 < size) :
    stores (cpu_pixel m inp cols size i j s).trace =
      stores s.trace ++ [(i, j, i * (cols - size + 1) + j)] := by
  obtain ⟨t, ht, hQ⟩ := cpu_pixel_trace m inp cols size i j s hpos
  rw [ht, stores_append, stores_append, stores_reads cols size (size / 2) i j t hQ]
  simp [stores]

/-- One round adds exactly one division, by the `ones` it leaves. -/
theorem cpu_pixel_divisors (m : IntModel) (inp : Int → Int) (cols size i j : Int)
    (s : State) (hpos : 0 < size) :
    divisors (cpu_pixel m inp cols size i j s).trace =
      divisors s.trace ++ [(cpu_pixel m inp cols size i j s).ones] := by
  obtain ⟨t, ht, hQ⟩ := cpu_pixel_trace m inp cols size i j s hpos
  rw [ht, divisors_append, divisors_append, divisors_reads cols size (size / 2) i j t hQ]
  simp [divisors]

/-- The stores of `compute_cpu`, in the order they are executed. -/
theorem compute_cpu_stores (m : IntModel) (inp out0 : Int → Int) (rows cols size : Int)
    (hpos : 0 < size) :
    stores (compute_cpu m inp out0 rows cols size).trace =
      pixel_slots (rows - size + 1).toNat (cols - size + 1).toNat (cols - size + 1) := by
  unfold compute_cpu forLt pixel_slots
  have key := forRange_inv
    (fun i s => cpu_row m inp cols size (Int.tdiv size 2) (cols - size + 1) i s)
    (rows - size + 1 - 0).toNat
    (fun k t => stores t.trace = (List.range k).flatMap
      (fun i : Nat => (List.range (cols - size + 1).toNat).map
        (fun j : Nat => ((i : Int), (j : Int), (i : Int) * (cols - size + 1) + (j : Int)))))
    0 { sum := 0, ones := 0, out := out0, trace := [] } (by simp [stores])
    (by
      intro k t _ hP
      unfold cpu_row forLt
      have row := forRange_inv
        (fun j s => cpu_store m cols size (0 + (k : Int)) j
          (cpu_window m inp cols size (Int.tdiv size 2) (0 + (k : Int)) j s))
        (cols - size + 1 - 0).toNat
        (fun n u => stores u.trace = stores t.trace ++ (List.range n).map
          (fun j : Nat => ((k : Int), (j : Int), (k : Int) * (cols - size + 1) + (j : Int))))
        0 t (by simp)
        (by
          intro n u _ hu
          have h := cpu_pixel_stores m inp cols size (0 + (k : Int)) (0 + (n : Int)) u hpos
          unfold cpu_pixel at h
          rw [h, hu, List.range_succ, List.map_append]
          simp)
      rw [row, hP, List.range_succ, List.flatMap_append]
      simp)
  simpa using key

theorem mem_pixel_slots (R C : Nat) (W : Int) (p : Int × Int × Int) :
    p ∈ pixel_slots R C W ↔
      0 ≤ p.1 ∧ p.1 < R ∧ 0 ≤ p.2.1 ∧ p.2.1 < C ∧ p.2.2 = p.1 * W + p.2.1 := by
  unfold pixel_slots
  simp only [List.mem_flatMap, List.mem_map, List.mem_range]
  constructor
  · rintro ⟨i, hi, j, hj, rfl⟩
    refine ⟨?_, ?_, ?_, ?_, rfl⟩ <;> simp only <;> omega
  · rintro ⟨h1, h2, h3, h4, h5⟩
    refine ⟨p.1.toNat, by omega, p.2.1.toNat, by omega, ?_⟩
    obtain ⟨a, b, c⟩ := p
    simp only at h1 h2 h3 h4 h5
    simp only [Int.toNat_of_nonneg h1, Int.toNat_of_nonneg h3, h5]

theorem mem_work_items (R C i j : Int) :
    (i, j) ∈ work_items R C ↔ 0 ≤ i ∧ i < R ∧ 0 ≤ j ∧ j < C := by
  unfold work_items
  simp only [List.mem_flatMap, List.mem_map, List.mem_range, Prod.mk.injEq]
  constructor
  · rintro ⟨a, ha, b, hb, rfl, rfl⟩
    omega
  · rintro ⟨h1, h2, h3, h4⟩
    exact ⟨i.toNat, by omega, j.toNat, by omega, by omega, by omega⟩

theorem length_pixel_slots (R C : Nat) (W : Int) : (pixel_slots R C W).length = R * C := by
  unfold pixel_slots
  induction R with
  | zero => simp
  | succ R ih =>
    rw [List.range_succ, List.flatMap_append, List.length_append, ih]
    simp [Nat.succ_mul]

/-! ## Divisors and reads -/

theorem windowRead_divisorPos (cols size half i j : Int) (e : Event)
    (h : WindowRead cols size half i j e) : e.divisorPos := by
  obtain ⟨r, c, rfl, _⟩ := h
  trivial

/-- The divisors of `compute_cpu` when every window has `K` samples: the `n`-th
division is by `K * n`, as the accumulator `ones` holds it, because `ones` is
carried from one output pixel to the next. -/
theorem compute_cpu_divisors (m : IntModel) (inp out0 : Int → Int) (rows cols size K : Int)
    (hpos : 0 < size) (hK : ∀ i j : Int, windowCount size i j = K) :
    divisors (compute_cpu m inp out0 rows cols size).trace =
      (List.range ((rows - size + 1).toNat * (cols - size + 1).toNat)).map
        (fun n : Nat => m.norm (K * ((n : Int) + 1))) := by
  have key := compute_cpu_inv m
    (fun s => m.norm s.sum = s.sum ∧
      s.ones = m.norm (K * ((divisors s.trace).length : Int)) ∧
      divisors s.trace = (List.range (divisors s.trace).length).map
        (fun n : Nat => m.norm (K * ((n : Int) + 1))))
    inp out0 rows cols size
    ⟨norm_zero m, by simp [divisors, norm_zero], by simp [divisors]⟩
    (by
      intro i j s _ hs
      obtain ⟨hsum, hones, hdiv⟩ := hs
      have hon : m.norm s.ones = s.ones := by rw [hones, norm_norm]
      obtain ⟨e1, e2, _⟩ := cpu_pixel_spec m inp cols size i j s hpos hsum hon
      have hd := cpu_pixel_divisors m inp cols size i j s hpos
      have e2b : (cpu_pixel m inp cols size i j s).ones =
          m.norm (K * (((divisors s.trace).length : Int) + 1)) := by
        rw [e2, hones, norm_add_norm, hK]
        congr 1
        ring
      refine ⟨by rw [e1, norm_norm], ?_, ?_⟩
      · rw [e2b, hd, List.length_append]
        simp
      · rw [hd, List.length_append, List.length_singleton, List.range_succ, List.map_append,
          ← hdiv, e2b]
        simp)
  have hlen : (divisors (compute_cpu m inp out0 rows cols size).trace).length =
      (rows - size + 1).toNat * (cols - size + 1).toNat := by
    rw [length_divisors, compute_cpu_stores m inp out0 rows cols size hpos, length_pixel_slots]
  rw [← hlen]
  exact key.2.2

/-- The accesses one work item adds to the trace. -/
theorem compute_gpu_trace (m : IntModel) (inp : Int → Int) (rows cols size i j : Int)
    (out0 : Int → Int) (tr0 : List Event) (hpos : 0 < size)
    (hv : ValidPixel rows cols size i j) :
    ∃ t, (compute_gpu m inp rows cols size i j out0 tr0).trace =
        tr0 ++ t ++ [Event.store i j (i * (cols - size + 1) + j)
          (m.norm (windowSum inp cols size i j)) (m.norm (windowCount size i j))] ∧
      ∀ e ∈ t, WindowRead cols size (size / 2) i j e := by
  rw [compute_gpu_valid m inp rows cols size i j out0 tr0 hv]
  obtain ⟨t, ht, hQ⟩ := cpu_pixel_trace m inp cols size i j
    { sum := 0, ones := 0, out := out0, trace := tr0 } hpos
  obtain ⟨e1, e2, _⟩ := cpu_pixel_spec m inp cols size i j
    { sum := 0, ones := 0, out := out0, trace := tr0 } hpos (norm_zero m) (norm_zero m)
  simp only [zero_add] at e1 e2
  rw [e1, e2] at ht
  exact ⟨t, ht, hQ⟩

/-- A property of events that the reads and the store of every valid work item
have, holds of everything one work item (valid or not) adds to the trace. -/
theorem compute_gpu_extends (m : IntModel) (Q : Event → Prop) (inp : Int → Int)
    (rows cols size : Int) (hpos : 0 < size)
    (hread : ∀ i j e, ValidPixel rows cols size i j →
      WindowRead cols size (size / 2) i j e → Q e)
    (hstore : ∀ i j, ValidPixel rows cols size i j →
      Q (Event.store i j (i * (cols - size + 1) + j)
        (m.norm (windowSum inp cols size i j)) (m.norm (windowCount size i j))))
    (i j : Int) (out0 : Int → Int) (tr0 : List Event) :
    Extends Q tr0 (compute_gpu m inp rows cols size i j out0 tr0).trace := by
  by_cases hv : ValidPixel rows cols size i j
  · obtain ⟨t, ht, hQ⟩ := compute_gpu_trace m inp rows cols size i j out0 tr0 hpos hv
    refine ⟨t ++ [Event.store i j (i * (cols - size + 1) + j)
      (m.norm (windowSum inp cols size i j)) (m.norm (windowCount size i j))],
      by rw [ht, List.append_assoc], ?_⟩
    intro e he
    simp only [List.mem_append, List.mem_singleton] at he
    rcases he with he | he
    · exact hread i j e hv (hQ e he)
    · subst he
      exact hstore i j hv
  · rw [compute_gpu_invalid m inp rows cols size i j out0 tr0 hv]
    exact Extends.refl _ _

/-- The same for the kernel run over any list of coordinates. -/
theorem gpu_run_extends (m : IntModel) (Q : Event → Prop) (inp : Int → Int)
    (rows cols size : Int)
    (hitem : ∀ i j out0 tr0,
      Extends Q tr0 (compute_gpu m inp rows cols size i j out0 tr0).trace)
    (items : List (Int × Int)) (out0 : Int → Int) :
    ∀ e ∈ (gpu_run m inp rows cols size items out0).trace, Q e := by
  have key : ∀ (l : List (Int × Int)) (s : State), Extends Q s.trace
      (l.foldl (fun s p => compute_gpu m inp rows cols size p.1 p.2 s.out s.trace) s).trace := by
    intro l
    induction l with
    | nil => intro s; exact Extends.refl _ _
    | cons p ps ih =>
      intro s
      rw [List.foldl_cons]
      exact (hitem p.1 p.2 s.out s.trace).trans (ih _)
  obtain ⟨t, ht, hQ⟩ := key items { sum := 0, ones := 0, out := out0, trace := [] }
  unfold gpu_run
  rw [ht]
  simpa using hQ

/-- Every division of the kernel has a divisor of at least 1, as long as the window
count fits the accumulator `ones`: for every odd size up to 65535. -/
theorem gpu_run_divisors (inp out0 : Int → Int) (rows cols size : Int)
    (hpos : 0 < size) (hodd : size % 2 = 1) (hsize : size ≤ 65535)
    (items : List (Int × Int)) :
    ∀ e ∈ (gpu_run IntModel.int32 inp rows cols size items out0).trace, e.divisorPos := by
  apply gpu_run_extends IntModel.int32 Event.divisorPos inp rows cols size
  apply compute_gpu_extends IntModel.int32 Event.divisorPos inp rows cols size hpos
  · intro i j e _ hw
    exact windowRead_divisorPos _ _ _ _ _ e hw
  · intro i j _
    have hc := windowCount_pos size i j hpos
    have hd := diamond_count (size / 2) i j (by omega)
    have e : 2 * (size / 2) + 1 = size := by omega
    rw [e] at hd
    have hb : windowCount size i j < 2147483648 := by
      rw [hd]
      have h1 : 0 ≤ size / 2 := by omega
      have h2 : size / 2 ≤ 32767 := by omega
      nlinarith
    show 1 ≤ IntModel.norm IntModel.int32 (windowCount size i j)
    rw [norm_of_range _ _ (by omega) hb]
    exact hc

/-! ## Uniform images and single-sample windows -/

theorem norm_exact (x : Int) : IntModel.norm IntModel.exact x = x := rfl

theorem windowSum_uniform (inp : Int → Int) (rows cols size i j v : Int)
    (hodd : size % 2 = 1) (hv : ValidPixel rows cols size i j)
    (hunif : ∀ k : Int, 0 ≤ k → k < rows * cols → inp k = v) :
    windowSum inp cols size i j = v * windowCount size i j := by
  unfold windowSum windowCount
  obtain ⟨a1, a2, a3, a4⟩ := hv
  rw [Finset.sum_congr rfl (fun p hp =>
    hunif _ (window_in_bounds rows cols size i j hodd a1 a2 a3 a4 p hp).1
      (window_in_bounds rows cols size i j hodd a1 a2 a3 a4 p hp).2)]
  rw [Finset.sum_const, nsmul_eq_mul]
  ring

theorem uchar_avg_uniform (v n : Int) (hv0 : 0 ≤ v) (hv1 : v ≤ 255) (hn : 1 ≤ n) :
    toUChar (Int.tdiv (v * n) n) = v := by
  rw [Int.mul_tdiv_cancel v (by omega)]
  unfold toUChar
  omega

/-- On a uniform image, with exact accumulators, every slot `compute_cpu` stores
into ends up holding `v`. -/
theorem compute_cpu_uniform (inp out0 : Int → Int) (rows cols size v : Int)
    (hv0 : 0 ≤ v) (hv1 : v ≤ 255) (hpos : 0 < size) (hodd : size % 2 = 1)
    (hunif : ∀ k : Int, 0 ≤ k → k < rows * cols → inp k = v) :
    ∀ p ∈ stores (compute_cpu IntModel.exact inp out0 rows cols size).trace,
      (compute_cpu IntModel.exact inp out0 rows cols size).out p.2.2 = v := by
  have key := compute_cpu_inv IntModel.exact
    (fun s => s.sum = v * s.ones ∧ 0 ≤ s.ones ∧ ∀ p ∈ stores s.trace, s.out p.2.2 = v)
    inp out0 rows cols size ⟨by simp, le_refl _, by simp [stores]⟩
    (by
      intro i j s hv hs
      obtain ⟨hsum, hones, hst⟩ := hs
      obtain ⟨e1, e2, e3⟩ := cpu_pixel_spec IntModel.exact inp cols size i j s hpos rfl rfl
      simp only [norm_exact] at e1 e2 e3
      have hc := windowCount_pos size i j hpos
      have hw := windowSum_uniform inp rows cols size i j v hodd hv hunif
      have hval : toUChar (Int.tdiv (s.sum + windowSum inp cols size i j)
          (s.ones + windowCount size i j)) = v := by
        rw [hsum, hw, ← mul_add]
        exact uchar_avg_uniform v _ hv0 hv1 (by omega)
      refine ⟨by rw [e1, e2, hsum, hw]; ring, by omega, ?_⟩
      intro p hp
      rw [cpu_pixel_stores IntModel.exact inp cols size i j s hpos] at hp
      rw [e3, hval]
      by_cases hidx : p.2.2 = i * (cols - size + 1) + j
      · rw [hidx, Function.update_same]
      · rw [Function.update_noteq hidx]
        simp only [List.mem_append, List.mem_singleton] at hp
        rcases hp with hp | hp
        · exact hst p hp
        · exact absurd (by rw [hp]) hidx)
  exact key.2.2

/-- For `size = 1` the window of `(i, j)` is the single sample `(i, j)`. -/
theorem window_one (i j : Int) : window 1 i j = {(i, j)} := by
  ext p
  obtain ⟨r, c⟩ := p
  unfold window inMask
  simp only [Finset.mem_filter, Finset.mem_product, Finset.mem_Icc, Finset.mem_Ico,
    Finset.mem_singleton, Prod.mk.injEq]
  rw [abs_eq_max_neg, abs_eq_max_neg]
  constructor
  · rintro ⟨_, h⟩
    omega
  · rintro ⟨rfl, rfl⟩
    omega

/-- For `size = 1` one work item of the kernel copies its input sample: the kernel
side of the single-sample identity. -/
theorem compute_gpu_size_one (m : IntModel) (inp : Int → Int) (rows cols i j : Int)
    (out0 : Int → Int) (tr0 : List Event) (himg : IsImage inp rows cols)
    (hi : 0 ≤ i) (hi2 : i < rows) (hj : 0 ≤ j) (hj2 : j < cols) :
    (compute_gpu m inp rows cols 1 i j out0 tr0).out (i * cols + j) = inp (i * cols + j) := by
  have hv : ValidPixel rows cols 1 i j := ⟨hi, by omega, hj, by omega⟩
  have hs : windowSum inp cols 1 i j = inp (i * cols + j) := by
    unfold windowSum
    rw [window_one]
    simp
  have hc : windowCount 1 i j = 1 := by
    unfold windowCount
    rw [window_one]
    simp
  have hb := windowSum_bounds inp rows cols 1 i j (by decide) himg hi (by omega) hj (by omega)
  rw [hc] at hb
  rw [compute_gpu_out m inp rows cols 1 i j out0 tr0 (by decide) hv,
    stored_avg m inp rows cols 1 i j (by decide) (by decide) himg hi (by omega) hj (by omega)
      (norm_of_range m _ (by omega) (by omega))
      (by rw [hc]; exact norm_of_range m 1 (by decide) (by decide))]
  have e : i * (cols - 1 + 1) + j = i * cols + j := by ring
  rw [e, Function.update_same, hs, hc]
  simp

/-- The window of a pixel has at most `(size+1)*size` samples, and their sum is at
most `255*(size+1)*size`: the accumulator bound, which every division of the kernel
`compute_gpu` meets. -/
theorem window_bounds (inp : Int → Int) (rows cols size i j : Int) (hpos : 0 < size)
    (hodd : size % 2 = 1) (himg : IsImage inp rows cols)
    (hv : ValidPixel rows cols size i j) :
    windowCount size i j ≤ (size + 1) * size ∧
      windowSum inp cols size i j ≤ 255 * (size + 1) * size := by
  have hc : windowCount size i j ≤ (size + 1) * size := by
    unfold windowCount window
    have h := Finset.card_filter_le (Finset.Icc i (i + size) ×ˢ Finset.Ico j (j + size))
      (fun p => inMask (size / 2) i j p.1 p.2)
    rw [Finset.card_product, Int.card_Icc, Int.card_Ico] at h
    have e1 : ((i + size + 1 - i).toNat : Int) = size + 1 := by omega
    have e2 : ((j + size - j).toNat : Int) = size := by omega
    have h2 : (((Finset.filter (fun p => inMask (size / 2) i j p.1 p.2)
        (Finset.Icc i (i + size) ×ˢ Finset.Ico j (j + size))).card : Nat) : Int) ≤
        (((i + size + 1 - i).toNat * (j + size - j).toNat : Nat) : Int) := by
      exact_mod_cast h
    rw [Nat.cast_mul, e1, e2] at h2
    exact h2
  obtain ⟨a1, a2, a3, a4⟩ := hv
  have hs := (windowSum_bounds inp rows cols size i j hodd himg a1 a2 a3 a4).2
  exact ⟨hc, by nlinarith⟩

/-- C1 (executor parity), refuted on the code: on the 1 × 2 image `[[0, 2]]` with
`filter_size = 1` the sequential executor `compute_cpu` leaves 1 in `out[1]` (its
accumulators carry the first pixel over) while the kernel run once per coordinate
leaves 2 there. -/
theorem executor_parity_fails :
    (compute_cpu IntModel.int32 img_0_2 out_zero 1 2 1).out 1 = 1 ∧
      (gpu_run IntModel.int32 img_0_2 1 2 1 (work_items (1 - 1 + 1) (2 - 1 + 1))
        out_zero).out 1 = 2 := by
  decide

/-- C2 (sequential sample contract), refuted on the code: on the 1 × 2 image
`[[0, 2]]` with `filter_size = 1`, `compute_cpu` stores 1 at the slot of output
pixel `(0, 1)`, while the sum over the window of that pixel alone divided by its
count is 2.  The first output pixel is right: the 3 × 3 fixture with a single 9
in the middle yields `9 / 5 = 1`. -/
theorem cpu_sample_contract_fails :
    (compute_cpu IntModel.int32 img_0_2 out_zero 1 2 1).out (0 * (2 - 1 + 1) + 1) = 1 ∧
      windowSum img_0_2 2 1 0 1 / windowCount 1 0 1 = 2 ∧
      (compute_cpu IntModel.int32 img_center9 out_zero 3 3 3).out 0 = 1 ∧
      windowSum img_center9 3 3 0 0 = 9 ∧ windowCount 3 0 0 = 5 := by
  decide

/-- C5 (single-sample identity), refuted on the code for `compute_cpu`: on the
1 × 2 image `[[0, 2]]` with `filter_size = 1`, `compute_cpu` leaves 1 in `out[1]`
while `in[1]` is 2. -/
theorem cpu_single_sample_identity_fails :
    (compute_cpu IntModel.int32 img_0_2 out_zero 1 2 1).out (0 * 2 + 1) = 1 ∧
      img_0_2 (0 * 2 + 1) = 2 := by
  decide

/-- C6 (uniform-image invariance): if every sample of the image equals `v`, with
`0 ≤ v ≤ 255`, then for every positive odd size with `rows ≥ size` and
`cols ≥ size` every output sample equals `v`, in the buffer `compute_cpu` leaves
and in the buffer the kernel leaves after running once per coordinate of the
output region, in any order; the accumulators are taken as exact integers. -/
theorem uniform_image_invariance (inp out0 : Int → Int) (rows cols size v : Int)
    (hv0 : 0 ≤ v) (hv255 : v ≤ 255)
    (hunif : ∀ k : Int, 0 ≤ k → k < rows * cols → inp k = v)
    (hpos : 0 < size) (hodd : size % 2 = 1) (hrows : size ≤ rows) (hcols : size ≤ cols) :
    ∀ i j : Int, 0 ≤ i → i < rows - size + 1 → 0 ≤ j → j < cols - size + 1 →
      (compute_cpu IntModel.exact inp out0 rows cols size).out
          (i * (cols - size + 1) + j) = v ∧
      ∀ items : List (Int × Int),
        items.Perm (work_items (rows - size + 1) (cols - size + 1)) →
        (gpu_run IntModel.exact inp rows cols size items out0).out
          (i * (cols - size + 1) + j) = v := by
  intro i j hi hi2 hj hj2
  have _ := hrows
  have _ := hcols
  have hv : ValidPixel rows cols size i j := ⟨hi, hi2, hj, hj2⟩
  constructor
  · have hmem : (i, j, i * (cols - size + 1) + j) ∈
        stores (compute_cpu IntModel.exact inp out0 rows cols size).trace := by
      rw [compute_cpu_stores IntModel.exact inp out0 rows cols size hpos, mem_pixel_slots]
      exact ⟨hi, by simp only; omega, hj, by simp only; omega, rfl⟩
    exact compute_cpu_uniform inp out0 rows cols size v hv0 hv255 hpos hodd hunif _ hmem
  · intro items hperm
    have hmem : (i, j) ∈ items :=
      hperm.mem_iff.2 ((mem_work_items _ _ i j).2 ⟨hi, hi2, hj, hj2⟩)
    unfold gpu_run
    rw [gpu_fold_out IntModel.exact inp rows cols size i j hpos hv items, if_pos hmem,
      windowSum_uniform inp rows cols size i j v hodd hv hunif]
    simp only [norm_exact]
    exact uchar_avg_uniform v _ hv0 hv255 (windowCount_pos size i j hpos)

/-- The uniform-image invariance at the 5 × 5 image of all 100 with `size = 3`,
output pixel `(2, 1)`, for both executors. -/
theorem uniform_image_invariance_witness :
    (compute_cpu IntModel.exact img_all100 out_zero 5 5 3).out (2 * (5 - 3 + 1) + 1) = 100 ∧
      (gpu_run IntModel.exact img_all100 5 5 3 (work_items (5 - 3 + 1) (5 - 3 + 1))
        out_zero).out (2 * (5 - 3 + 1) + 1) = 100 :=
  have h := uniform_image_invariance img_all100 out_zero 5 5 3 100 (by decide) (by decide)
    (fun _ _ _ => rfl) (by decide) (by decide) (by decide) (by decide) 2 1
    (by decide) (by decide) (by decide) (by decide)
  ⟨h.1, h.2 _ (List.Perm.refl _)⟩

/-- C7 (rejection), refuted on the code for a size greater than `min(rows, cols)`:
with a 3 × 3 image, `filter_size = 5` and `--cpu`, `main` reports no error,
asks `malloc` for a buffer, invokes `compute_cpu` and returns 0. -/
theorem main_accepts_oversize_filter :
    (5 : Int) > min 3 3 ∧ ((3 : Int) - 5 + 1 ≤ 0) ∧
      (main 5 (some (img_center9, 3, 3)) 5 "--cpu" 0 out_zero).exit_code = 0 ∧
      (main 5 (some (img_center9, 3, 3)) 5 "--cpu" 0 out_zero).error_msg = none ∧
      (main 5 (some (img_center9, 3, 3)) 5 "--cpu" 0 out_zero).malloc_size = some 1 ∧
      (main 5 (some (img_center9, 3, 3)) 5 "--cpu" 0 out_zero).invoked =
        some Executor.cpu := by
  decide

/-- C7 as amended: once the image is loaded, if `filter_size ≤ 0` or `filter_size`
is even, `main` reports the invalid filter size and returns 3 before line 105 asks
`malloc` for the output buffer, and no executor is invoked. -/
theorem main_rejects_invalid_size (img out0 : Int → Int) (rows cols filter_size cl_err : Int)
    (exec_mode : String) (hbad : filter_size ≤ 0 ∨ filter_size % 2 = 0) :
    (main 5 (some (img, rows, cols)) filter_size exec_mode cl_err out0).exit_code = 3 ∧
    (main 5 (some (img, rows, cols)) filter_size exec_mode cl_err out0).error_msg =
      some "Error: invalid filter size\n" ∧
    (main 5 (some (img, rows, cols)) filter_size exec_mode cl_err out0).malloc_size = none ∧
    (main 5 (some (img, rows, cols)) filter_size exec_mode cl_err out0).invoked = none := by
  have hbad2 : filter_size ≤ 0 ∨ Int.tmod filter_size 2 = 0 := by
    rcases hbad with h | h
    · exact Or.inl h
    · by_cases h0 : filter_size ≤ 0
      · exact Or.inl h0
      · right
        rw [Int.tmod_eq_emod (by omega) (by decide)]
        exact h
  have hm : main 5 (some (img, rows, cols)) filter_size exec_mode cl_err out0 =
      { exit_code := 3, error_msg := some "Error: invalid filter size\n",
        malloc_size := none, invoked := none, result := none } := by
    unfold main
    simp only [ne_eq, not_true_eq_false, if_false, hbad2, if_true]
  rw [hm]
  exact ⟨rfl, rfl, rfl, rfl⟩

/-- The sizes 0 and 4 are rejected, here with a 3 × 3 image. -/
theorem main_rejects_invalid_size_witness :
    ((main 5 (some (img_center9, 3, 3)) 0 "--cpu" 0 out_zero).exit_code = 3 ∧
      (main 5 (some (img_center9, 3, 3)) 0 "--cpu" 0 out_zero).invoked = none) ∧
    ((main 5 (some (img_center9, 3, 3)) 4 "--gpu" 0 out_zero).exit_code = 3 ∧
      (main 5 (some (img_center9, 3, 3)) 4 "--gpu" 0 out_zero).invoked = none) :=
  have h0 := main_rejects_invalid_size img_center9 out_zero 3 3 0 0 "--cpu"
    (Or.inl (by decide))
  have h4 := main_rejects_invalid_size img_center9 out_zero 3 3 4 0 "--gpu"
    (Or.inr (by decide))
  ⟨⟨h0.1, h0.2.2.2⟩, ⟨h4.1, h4.2.2.2⟩⟩

/-- C8 (no division by zero), refuted on the code for `compute_cpu`: on a
750 × 750 image with `filter_size = 101` every window has 5101 samples and
`compute_cpu` divides 422500 times; since `ones` is never reset, its `n`-th divisor
is `5101 * n` as a 32-bit `int` holds it, and the last one, `5101 * 422500 =
2155172500`, has passed 2^31 - 1: the divisor is -2139794796, not at least 1. -/
theorem cpu_divisor_overflows :
    divisors (compute_cpu IntModel.int32 img_all255 out_zero 750 750 101).trace =
        (List.range 422500).map (fun n : Nat => wrap32 (5101 * ((n : Int) + 1))) ∧
      wrap32 (5101 * (((422499 : Nat) : Int) + 1)) = -2139794796 ∧
      (-2139794796 : Int) ∈
        divisors (compute_cpu IntModel.int32 img_all255 out_zero 750 750 101).trace := by
  have hK : ∀ i j : Int, windowCount 101 i j = 5101 := by
    intro i j
    have h := diamond_count 50 i j (by decide)
    norm_num at h
    exact h
  have hd := compute_cpu_divisors IntModel.int32 img_all255 out_zero 750 750 101 5101
    (by decide) hK
  have hn : ((750 : Int) - 101 + 1).toNat * ((750 : Int) - 101 + 1).toNat = 422500 := by
    decide
  rw [hn] at hd
  refine ⟨hd, by decide, ?_⟩
  rw [hd, List.mem_map]
  exact ⟨422499, List.mem_range.2 (by decide), by decide⟩

/-- C9 (accumulator bound), refuted on the code: on the 1 × 3 image of all 255
with `filter_size = 1`, the third division of `compute_cpu` is `765 / 3`, with
`ones = 3 > (size+1)*size = 2` and `sum = 765 > 255*(size+1)*size = 510`: the
accumulators are not reset between output pixels, so they grow with the number of
output pixels and not only with the size of the window. -/
theorem cpu_accumulator_bound_fails :
    Event.store 0 2 2 765 3 ∈
        (compute_cpu IntModel.int32 img_all255 out_zero 1 3 1).trace ∧
      ¬ ((3 : Int) ≤ (1 + 1) * 1) ∧ ¬ ((765 : Int) ≤ 255 * (1 + 1) * 1) := by
  decide

end Filter
